import Mathlib

/-!
Verification of the JPG-Cracker region scanner and bit-corruption engine.

The scanner (`RegionScanner._jpg_segments` in the source) walks a JPEG byte
stream: it skips the 2-byte SOI signature, resynchronises on stray bytes,
stops at EOI (0xD9) or when a segment's declared extent would exceed the
buffer, and records named regions for recognised markers into an
insertion-ordered dictionary.  The corruption routine (`damage_region`)
validates the requested bit count against the region's bit capacity and
XOR-flips the selected bits in place.

Bytes are modelled as `List Nat` (a `bytearray`); Python's arbitrary-width
integers are `Nat`/`Int` (the recorded region length `seg_len - 2` can be
negative, hence `Int`).  The `while` loop is modelled with explicit fuel;
`jpgScanLoop_fuel_stable` shows the result is independent of the fuel once
the fuel dominates the remaining buffer length, and `jpg_records` runs the
loop with fuel `d.length`, which dominates the iteration count since the
cursor strictly increases each iteration.  Randomness is modelled as a
nondeterministically injected draw (`sample` for scatter mode, `start` for
contiguous mode) constrained by `validDraw`, the support of the
distributions `random.sample` and `random.randint` use in the source.
-/

namespace JPGCracker

/-- The recognised-marker table of `_jpg_segments`
(`{0xDB: "DQT-量化表", 0xC4: ..., 0xFE: "COM"}.get(marker)`). -/
def markerName (m : Nat) : Option String :=
  if m = 0xDB then some "DQT-量化表"
  else if m = 0xC4 then some "DHT-霍夫曼表"
  else if m = 0xDA then some "SOS-扫描数据"
  else if m = 0xE0 then some "APP0"
  else if m = 0xE1 then some "EXIF"
  else if m = 0xFE then some "COM"
  else none

/-- `int.from_bytes(d[i+2:i+4], 'big')`: the big-endian 2-byte length field
of the segment whose escape byte sits at cursor `i`. -/
def segLen (d : List Nat) (i : Nat) : Nat :=
  d.getD (i + 2) 0 * 256 + d.getD (i + 3) 0

/-- One region-record event: `(name, offset, length)` exactly as the source
stores it, `regions[name] = (i + 2, seg_len - 2)`. -/
abbrev RegionEntry := String × Nat × Int

/-- The `while i + 4 <= len(d)` walk of `_jpg_segments`, emitting the
region-record events in stream order.  `fuel` bounds the number of loop
iterations; since the cursor `i` strictly increases every iteration and the
loop only runs while `i + 4 ≤ d.length`, fuel `d.length` is enough (see
`jpgScanLoop_fuel_stable`). -/
def jpgScanLoop (d : List Nat) : Nat → Nat → List RegionEntry
  | 0, _ => []
  | fuel + 1, i =>
    if i + 4 ≤ d.length then
      if d.getD i 0 ≠ 0xFF then jpgScanLoop d fuel (i + 1)
      else if d.getD (i + 1) 0 = 0xD9 then []
      else if 0xC0 ≤ d.getD (i + 1) 0 ∧ d.getD (i + 1) 0 ≤ 0xFE then
        if d.length < i + 2 + segLen d i then []
        else
          (match markerName (d.getD (i + 1) 0) with
            | some name => [(name, i + 2, (segLen d i : Int) - 2)]
            | none => []) ++ jpgScanLoop d fuel (i + 2 + segLen d i)
      else jpgScanLoop d fuel (i + 1)
    else []

/-- The stream-ordered sequence of region-record events of one scan,
starting at cursor 2 (just past the SOI signature). -/
def jpg_records (d : List Nat) : List RegionEntry :=
  jpgScanLoop d d.length 2

/-- Python dict assignment `regions[name] = v` on an insertion-ordered
association list: an existing key keeps its position and gets the new
value; a fresh key is appended. -/
def dictInsert (m : List RegionEntry) (k : String) (v : Nat × Int) :
    List RegionEntry :=
  if m.any (fun e => e.1 == k) then
    m.map (fun e => if e.1 == k then (k, v) else e)
  else m ++ [(k, v)]

/-- Replaying the record events through dict assignment yields the
`self.regions` mapping in its iteration (= insertion) order. -/
def buildDict (l : List RegionEntry) : List RegionEntry :=
  l.foldl (fun m e => dictInsert m e.1 e.2) []

/-- `RegionScanner.__init__` / `_parse`: require the 2-byte SOI signature
`FF D8` (else `ValueError("仅支持 JPG")`), then scan eagerly. -/
def scan (d : List Nat) : Except String (List RegionEntry) :=
  if d.take 2 = [0xFF, 0xD8] then Except.ok (buildDict (jpg_records d))
  else Except.error "仅支持 JPG"

/-- Python `max(items, key=lambda x: x[1][1])` starting from current best
`a`: a later element replaces the best only when strictly greater, so the
first maximal element wins. -/
def pyMax1 (a : RegionEntry) : List RegionEntry → RegionEntry
  | [] => a
  | x :: xs => if a.2.2 < x.2.2 then pyMax1 x xs else pyMax1 a xs

/-- `RegionScanner.largest_region`: name of the first region of maximal
length in iteration order; on an empty mapping Python's `max` raises. -/
def largest_region (regions : List RegionEntry) : Except String String :=
  match regions with
  | [] => Except.error "max() arg is an empty sequence"
  | a :: xs => Except.ok (pyMax1 a xs).1

/-- The value attached to the last record event carrying key `k`. -/
def lastVal (l : List RegionEntry) (k : String) : Option (Nat × Int) :=
  (l.reverse.find? (fun e => e.1 == k)).map Prod.snd

/-- The two bit-selection modes of `damage_region` (`"random"` versus any
other mode string, which the source treats as contiguous). -/
inductive Mode
  | random
  | seq
deriving DecidableEq

/-- `data[byte_i] ^= 1 << bit_i` for one selected region-relative bit
index `b`, with `byte_i = off + b // 8` and `bit_i = b % 8`. -/
def flipOne (data : List Nat) (off b : Nat) : List Nat :=
  data.set (off + b / 8) ((data.getD (off + b / 8) 0) ^^^ (1 <<< (b % 8)))

/-- The mutation loop `for b in idxs: data[off + b // 8] ^= 1 << b % 8`. -/
def flipBits (data : List Nat) (off : Nat) (idxs : List Nat) : List Nat :=
  idxs.foldl (fun dd b => flipOne dd off b) data

/-- The index sequence the source draws: `random.sample(range(total), bits)`
is injected as `sample`; contiguous mode takes `range(start, start + bits)`
with the injected `start = random.randint(0, total_bits - bits)`. -/
def drawnIdxs (mode : Mode) (sample : List Nat) (start bits : Nat) :
    List Nat :=
  match mode with
  | Mode.random => sample
  | Mode.seq => List.range' start bits

/-- `damage_region(data, off, size, bits, mode)`: guard
`bits > size * 8` raises `ValueError("bit 数超过区域总位数")` before any
mutation; otherwise flip the drawn bits in place.  The returned pair is
the final buffer together with the raised error, if any. -/
def damage_region (data : List Nat) (off size bits : Nat) (mode : Mode)
    (sample : List Nat) (start : Nat) : List Nat × Option String :=
  if bits > size * 8 then (data, some "bit 数超过区域总位数")
  else (flipBits data off (drawnIdxs mode sample start bits), none)

/-- Support of the random draw in each mode: `random.sample(range(t), bits)`
returns `bits` distinct members of `range(t)`; `random.randint(0, t - bits)`
returns a start with `start + bits ≤ t`. -/
def validDraw (mode : Mode) (total bits : Nat) (sample : List Nat)
    (start : Nat) : Prop :=
  match mode with
  | Mode.random =>
      sample.Nodup ∧ sample.length = bits ∧ ∀ b ∈ sample, b < total
  | Mode.seq => start + bits ≤ total

instance (mode : Mode) (total bits : Nat) (sample : List Nat) (start : Nat) :
    Decidable (validDraw mode total bits sample start) :=
  match mode with
  | Mode.random => inferInstanceAs (Decidable (_ ∧ _ ∧ _))
  | Mode.seq => inferInstanceAs (Decidable (_ ≤ _))

/-- Bit `p % 8` of byte `p / 8`: the absolute-bit-position view of a
buffer, bit 0 being the least significant bit of byte 0. -/
def bitAt (data : List Nat) (p : Nat) : Bool :=
  (data.getD (p / 8) 0).testBit (p % 8)

/-! ### Fuel adequacy for the scan loop -/

/-- One extra unit of fuel never changes the walk once the fuel covers the
remaining buffer length: each iteration consumes one unit and advances the
cursor by at least one, and the loop exits once `i + 4 > d.length`. -/
theorem jpgScanLoop_fuel_succ (d : List Nat) :
    ∀ fuel i, d.length - i ≤ fuel →
      jpgScanLoop d (fuel + 1) i = jpgScanLoop d fuel i := by
  intro fuel
  induction fuel with
  | zero =>
    intro i h
    simp only [jpgScanLoop]
    have : ¬ i + 4 ≤ d.length := by omega
    simp [this]
  | succ fuel ih =>
    intro i h
    conv_lhs => rw [jpgScanLoop]
    conv_rhs => rw [jpgScanLoop]
    by_cases h4 : i + 4 ≤ d.length
    · simp only [if_pos h4]
      by_cases hff : d.getD i 0 ≠ 0xFF
      · simp only [if_pos hff]
        exact ih (i + 1) (by omega)
      · simp only [if_neg hff]
        by_cases heoi : d.getD (i + 1) 0 = 0xD9
        · simp only [if_pos heoi]
        · simp only [if_neg heoi]
          by_cases hrng : 0xC0 ≤ d.getD (i + 1) 0 ∧ d.getD (i + 1) 0 ≤ 0xFE
          · simp only [if_pos hrng]
            by_cases hover : d.length < i + 2 + segLen d i
            · simp only [if_pos hover]
            · simp only [if_neg hover]
              rw [ih (i + 2 + segLen d i) (by omega)]
          · simp only [if_neg hrng]
            exact ih (i + 1) (by omega)
    · simp only [if_neg h4]

/-- The walk's result is independent of the fuel, as long as the fuel
covers the remaining buffer length. -/
theorem jpgScanLoop_fuel_stable (d : List Nat) (i fuel k : Nat)
    (h : d.length - i ≤ fuel) :
    jpgScanLoop d (fuel + k) i = jpgScanLoop d fuel i := by
  induction k with
  | zero => rfl
  | succ k ih =>
    have : fuel + (k + 1) = (fuel + k) + 1 := by omega
    rw [this, jpgScanLoop_fuel_succ d (fuel + k) i (by omega), ih]

/-! ### Walk invariants -/

/-- Invariant of the walk from cursor `i`: every emitted record has its
offset at or past `i + 2`, its span end within the buffer, and a length of
at least `-2`; moreover the records appear in strictly advancing span
order (each record's span ends at or before the next record's offset). -/
theorem jpgScanLoop_inv (d : List Nat) :
    ∀ fuel i,
      (∀ e ∈ jpgScanLoop d fuel i,
          i + 2 ≤ e.2.1 ∧ (e.2.1 : Int) + e.2.2 ≤ (d.length : Int) ∧
            (-2 : Int) ≤ e.2.2) ∧
      List.Pairwise (fun e1 e2 : RegionEntry =>
          (e1.2.1 : Int) + e1.2.2 ≤ (e2.2.1 : Int)) (jpgScanLoop d fuel i) := by
  intro fuel
  induction fuel with
  | zero => intro i; simp [jpgScanLoop]
  | succ fuel ih =>
    intro i
    rw [jpgScanLoop]
    by_cases h4 : i + 4 ≤ d.length
    · simp only [if_pos h4]
      by_cases hff : d.getD i 0 ≠ 0xFF
      · simp only [if_pos hff]
        refine ⟨fun e he => ?_, (ih (i + 1)).2⟩
        have h := (ih (i + 1)).1 e he
        exact ⟨by omega, h.2.1, h.2.2⟩
      · simp only [if_neg hff]
        by_cases heoi : d.getD (i + 1) 0 = 0xD9
        · simp only [if_pos heoi]
          simp
        · simp only [if_neg heoi]
          by_cases hrng : 0xC0 ≤ d.getD (i + 1) 0 ∧ d.getD (i + 1) 0 ≤ 0xFE
          · simp only [if_pos hrng]
            by_cases hover : d.length < i + 2 + segLen d i
            · simp only [if_pos hover]
              simp
            · simp only [if_neg hover]
              have hend : i + 2 + segLen d i ≤ d.length := by omega
              have htail := ih (i + 2 + segLen d i)
              cases hm : markerName (d.getD (i + 1) 0) with
              | none =>
                simp only [List.nil_append]
                refine ⟨fun e he => ?_, htail.2⟩
                have h := htail.1 e he
                exact ⟨by omega, h.2.1, h.2.2⟩
              | some name =>
                simp only [List.singleton_append]
                constructor
                · intro e he
                  rcases List.mem_cons.mp he with h | h
                  · subst h
                    refine ⟨le_refl _, ?_, ?_⟩
                    · push_cast
                      omega
                    · push_cast
                      omega
                  · have h' := htail.1 e h
                    exact ⟨by omega, h'.2.1, h'.2.2⟩
                · rw [List.pairwise_cons]
                  refine ⟨fun y hy => ?_, htail.2⟩
                  have h' := (htail.1 y hy).1
                  push_cast
                  omega
          · simp only [if_neg hrng]
            refine ⟨fun e he => ?_, (ih (i + 1)).2⟩
            have h := (ih (i + 1)).1 e he
            exact ⟨by omega, h.2.1, h.2.2⟩
    · simp only [if_neg h4]
      simp

/-! ### Dictionary lemmas -/

/-- Every entry of `dictInsert m k v` is an old entry or the new pair. -/
theorem mem_dictInsert {m : List RegionEntry} {k : String} {v : Nat × Int}
    {e : RegionEntry} (h : e ∈ dictInsert m k v) : e ∈ m ∨ e = (k, v) := by
  unfold dictInsert at h
  split at h
  · rcases List.mem_map.mp h with ⟨e', he', heq⟩
    by_cases hk : (e'.1 == k) = true
    · rw [if_pos hk] at heq
      exact Or.inr heq.symm
    · rw [if_neg hk] at heq
      exact Or.inl (heq ▸ he')
  · rcases List.mem_append.mp h with h' | h'
    · exact Or.inl h'
    · exact Or.inr (List.mem_singleton.mp h')

/-- Every entry of the folded dictionary came from the accumulator or from
the record list. -/
theorem mem_buildDict_aux :
    ∀ (l acc : List RegionEntry) (e : RegionEntry),
      e ∈ l.foldl (fun m x => dictInsert m x.1 x.2) acc → e ∈ acc ∨ e ∈ l := by
  intro l
  induction l with
  | nil =>
    intro acc e h
    exact Or.inl h
  | cons x xs ih =>
    intro acc e h
    simp only [List.foldl_cons] at h
    rcases ih _ e h with h' | h'
    · rcases mem_dictInsert h' with h'' | h''
      · exact Or.inl h''
      · right
        rw [h'', Prod.mk.eta]
        exact List.mem_cons_self x xs
    · exact Or.inr (List.mem_cons_of_mem x h')

/-- Every entry of the Region mapping is one of the scan's record events. -/
theorem mem_buildDict {l : List RegionEntry} {e : RegionEntry}
    (h : e ∈ buildDict l) : e ∈ l := by
  rcases mem_buildDict_aux l [] e h with h' | h'
  · cases h'
  · exact h'

/-- Overwriting an existing key leaves the key sequence untouched. -/
theorem keys_dictInsert_of_mem {m : List RegionEntry} {k : String}
    (v : Nat × Int) (h : m.any (fun e => e.1 == k) = true) :
    (dictInsert m k v).map Prod.fst = m.map Prod.fst := by
  unfold dictInsert
  rw [if_pos h, List.map_map]
  refine List.map_congr_left fun e he => ?_
  by_cases hk : (e.1 == k) = true
  · simp only [Function.comp_apply, if_pos hk]
    exact (eq_of_beq hk).symm
  · simp only [Function.comp_apply, if_neg hk]

/-- Dict assignment preserves key uniqueness. -/
theorem keys_dictInsert_nodup {m : List RegionEntry} {k : String}
    (v : Nat × Int) (h : (m.map Prod.fst).Nodup) :
    ((dictInsert m k v).map Prod.fst).Nodup := by
  by_cases hc : m.any (fun e => e.1 == k) = true
  · rw [keys_dictInsert_of_mem v hc]
    exact h
  · unfold dictInsert
    rw [if_neg hc, List.map_append]
    rw [List.nodup_append]
    refine ⟨h, List.nodup_singleton _, ?_⟩
    intro a ha ha'
    rcases List.mem_map.mp ha with ⟨e, he, hae⟩
    rcases List.mem_singleton.mp ha' with rfl
    have := (List.any_eq_false.mp (Bool.not_eq_true _ ▸ hc)) e he
    exact this (by simp [hae])

/-- Key uniqueness of the folded dictionary. -/
theorem buildDict_keys_nodup_aux :
    ∀ (l acc : List RegionEntry), ((acc.map Prod.fst) : List String).Nodup →
      (((l.foldl (fun m x => dictInsert m x.1 x.2) acc).map Prod.fst)).Nodup := by
  intro l
  induction l with
  | nil =>
    intro acc h
    exact h
  | cons x xs ih =>
    intro acc h
    simp only [List.foldl_cons]
    exact ih _ (keys_dictInsert_nodup x.2 h)

/-- The Region mapping holds at most one entry per name. -/
theorem buildDict_keys_nodup (l : List RegionEntry) :
    ((buildDict l).map Prod.fst).Nodup :=
  buildDict_keys_nodup_aux l [] (by simp)

/-- Folding one more record performs one dict assignment. -/
theorem buildDict_concat (l : List RegionEntry) (x : RegionEntry) :
    buildDict (l ++ [x]) = dictInsert (buildDict l) x.1 x.2 := by
  unfold buildDict
  rw [List.foldl_append]
  rfl

/-- The last value for `k` after appending one record. -/
theorem lastVal_concat (l : List RegionEntry) (x : RegionEntry) (k : String) :
    lastVal (l ++ [x]) k = if x.1 = k then some x.2 else lastVal l k := by
  unfold lastVal
  rw [List.reverse_append]
  simp only [List.reverse_singleton, List.singleton_append]
  by_cases hk : x.1 = k
  · rw [List.find?_cons_of_pos _ (by simp [hk]), if_pos hk]
    rfl
  · rw [List.find?_cons_of_neg _ (by simp [hk]), if_neg hk]

/-- The value stored under each key of the mapping is the value of the
last record event with that key. -/
theorem buildDict_lastVal :
    ∀ (l : List RegionEntry) (k : String) (v : Nat × Int),
      (k, v) ∈ buildDict l → lastVal l k = some v := by
  intro l
  induction l using List.reverseRecOn with
  | nil =>
    intro k v h
    simp [buildDict] at h
  | append_singleton l x ih =>
    intro k v h
    rw [buildDict_concat] at h
    rw [lastVal_concat]
    unfold dictInsert at h
    split at h
    · rcases List.mem_map.mp h with ⟨e', he', heq⟩
      by_cases hk : (e'.1 == x.1) = true
      · rw [if_pos hk] at heq
        have hk1 : x.1 = k := congrArg Prod.fst heq
        have hv : v = x.2 := congrArg (fun p => p.2) heq.symm
        rw [if_pos hk1, hv]
      · rw [if_neg hk] at heq
        have hk1 : k = e'.1 := (congrArg Prod.fst heq).symm
        have hne : ¬ x.1 = k := by
          intro hx
          exact hk (beq_iff_eq.mpr (by rw [← hk1, hx]))
        rw [if_neg hne]
        exact ih k v (heq ▸ he')
    · rcases List.mem_append.mp h with h' | h'
      · rename_i hc
        have hne : ¬ x.1 = k := by
          intro hx
          have := (List.any_eq_false.mp (Bool.not_eq_true _ ▸ hc)) _ h'
          exact this (by simp [hx])
        rw [if_neg hne]
        exact ih k v h'
      · rcases List.mem_singleton.mp h' with heq
        have hk1 : x.1 = k := (congrArg Prod.fst heq).symm
        have hv : v = x.2 := congrArg (fun p => p.2) heq
        rw [if_pos hk1, hv]

/-- Dict assignment never loses a key, and establishes the assigned key. -/
theorem key_mem_dictInsert {m : List RegionEntry} {k k' : String}
    (v' : Nat × Int) :
    (∃ v, (k, v) ∈ m) ∨ k = k' → ∃ v, (k, v) ∈ dictInsert m k' v' := by
  intro h
  unfold dictInsert
  by_cases hc : m.any (fun e => e.1 == k') = true
  · rw [if_pos hc]
    rcases h with ⟨v, hv⟩ | rfl
    · by_cases hk : k = k'
      · subst hk
        exact ⟨v', List.mem_map.mpr ⟨(k, v), hv, by simp⟩⟩
      · exact ⟨v, List.mem_map.mpr ⟨(k, v), hv, by simp [hk]⟩⟩
    · rcases List.any_eq_true.mp hc with ⟨e, he, hbe⟩
      refine ⟨v', List.mem_map.mpr ⟨e, he, ?_⟩⟩
      simp [hbe]
  · rw [if_neg hc]
    rcases h with ⟨v, hv⟩ | rfl
    · exact ⟨v, List.mem_append.mpr (Or.inl hv)⟩
    · exact ⟨v', List.mem_append.mpr (Or.inr (by simp))⟩

/-- Folding preserves and creates keys: a key found in the accumulator or
among the remaining records ends up in the folded dictionary. -/
theorem buildDict_keys_complete_aux :
    ∀ (l acc : List RegionEntry) (k : String),
      ((∃ v, (k, v) ∈ acc) ∨ ∃ v, (k, v) ∈ l) →
      ∃ v, (k, v) ∈ l.foldl (fun m x => dictInsert m x.1 x.2) acc := by
  intro l
  induction l with
  | nil =>
    intro acc k h
    rcases h with h | ⟨v, hv⟩
    · exact h
    · cases hv
  | cons x xs ih =>
    intro acc k h
    simp only [List.foldl_cons]
    rcases h with ⟨v, hv⟩ | ⟨v, hv⟩
    · exact ih _ k (Or.inl (key_mem_dictInsert x.2 (Or.inl ⟨v, hv⟩)))
    · rcases List.mem_cons.mp hv with heq | hmem
      · exact ih _ k (Or.inl (key_mem_dictInsert x.2 (Or.inr (congrArg Prod.fst heq))))
      · exact ih _ k (Or.inr ⟨v, hmem⟩)

/-- Every recorded tag name has an entry in the Region mapping. -/
theorem buildDict_keys_complete {l : List RegionEntry} {k : String}
    {v : Nat × Int} (h : (k, v) ∈ l) : ∃ v', (k, v') ∈ buildDict l :=
  buildDict_keys_complete_aux l [] k (Or.inr ⟨v, h⟩)

/-! ### Python max semantics -/

/-- `pyMax1 a xs` is the first element of `a :: xs` of maximal length:
it splits the list so that everything before it is strictly shorter and
nothing in the list is longer. -/
theorem pyMax1_spec :
    ∀ (xs : List RegionEntry) (a : RegionEntry),
      ∃ pre post, a :: xs = pre ++ pyMax1 a xs :: post ∧
        (∀ y ∈ a :: xs, y.2.2 ≤ (pyMax1 a xs).2.2) ∧
        ∀ y ∈ pre, y.2.2 < (pyMax1 a xs).2.2 := by
  intro xs
  induction xs with
  | nil =>
    intro a
    refine ⟨[], [], rfl, ?_, by simp⟩
    intro y hy
    rcases List.mem_singleton.mp hy with rfl
    exact le_refl _
  | cons x xs ih =>
    intro a
    rw [pyMax1]
    by_cases hlt : a.2.2 < x.2.2
    · rw [if_pos hlt]
      rcases ih x with ⟨pre, post, hdec, hub, hstrict⟩
      refine ⟨a :: pre, post, ?_, ?_, ?_⟩
      · rw [List.cons_append, ← hdec]
      · intro y hy
        rcases List.mem_cons.mp hy with rfl | hy'
        · exact le_of_lt (lt_of_lt_of_le hlt (hub x (List.mem_cons_self x xs)))
        · exact hub y hy'
      · intro y hy
        rcases List.mem_cons.mp hy with rfl | hy'
        · exact lt_of_lt_of_le hlt (hub x (List.mem_cons_self x xs))
        · exact hstrict y hy'
    · rw [if_neg hlt]
      have hxa : x.2.2 ≤ a.2.2 := le_of_not_lt hlt
      rcases ih a with ⟨pre, post, hdec, hub, hstrict⟩
      have haub : a.2.2 ≤ (pyMax1 a xs).2.2 := hub a (List.mem_cons_self a xs)
      cases pre with
      | nil =>
        simp only [List.nil_append] at hdec
        have hr : a = pyMax1 a xs := (List.cons.inj hdec).1
        refine ⟨[], x :: xs, ?_, ?_, by simp⟩
        · rw [List.nil_append, ← hr]
        · intro y hy
          rcases List.mem_cons.mp hy with rfl | hy'
          · exact haub
          · rcases List.mem_cons.mp hy' with rfl | hy''
            · exact le_trans hxa haub
            · exact hub y (List.mem_cons_of_mem a hy'')
      | cons p pre' =>
        simp only [List.cons_append] at hdec
        obtain ⟨hpa, hxs⟩ := List.cons.inj hdec
        have hastrict : a.2.2 < (pyMax1 a xs).2.2 :=
          hpa ▸ hstrict p (List.mem_cons_self p pre')
        refine ⟨a :: x :: pre', post, ?_, ?_, ?_⟩
        · simp only [List.cons_append]
          rw [← hxs]
        · intro y hy
          rcases List.mem_cons.mp hy with rfl | hy'
          · exact haub
          · rcases List.mem_cons.mp hy' with rfl | hy''
            · exact le_trans hxa haub
            · exact hub y (List.mem_cons_of_mem a hy'')
        · intro y hy
          rcases List.mem_cons.mp hy with rfl | hy'
          · exact hastrict
          · rcases List.mem_cons.mp hy' with rfl | hy''
            · exact lt_of_le_of_lt hxa hastrict
            · exact hstrict y (hpa ▸ List.mem_cons_of_mem p hy'')

/-! ### Byte and bit manipulation lemmas -/

/-- `set` at a different index leaves a byte unchanged. -/
theorem getD_set_ne (l : List Nat) {i j : Nat} (v : Nat) (h : i ≠ j) :
    (l.set i v).getD j 0 = l.getD j 0 := by
  simp [List.getD_eq_getElem?_getD, List.getElem?_set_ne h]

/-- `set` at an in-range index stores the byte. -/
theorem getD_set_self (l : List Nat) {i : Nat} (v : Nat) (h : i < l.length) :
    (l.set i v).getD i 0 = v := by
  simp [List.getD_eq_getElem?_getD, List.getElem?_set_self h]

/-- Writing back the byte already present changes nothing. -/
theorem set_getD_self (l : List Nat) {i : Nat} (h : i < l.length) :
    l.set i (l.getD i 0) = l := by
  apply List.ext_getElem (by simp)
  intro j h1 h2
  by_cases hij : i = j
  · subst hij
    simp [List.getD_eq_getElem?_getD, List.getElem?_eq_getElem h]
  · simp [List.getElem_set_ne hij]

/-- Flipping one bit keeps the buffer length. -/
theorem flipOne_length (d : List Nat) (off b : Nat) :
    (flipOne d off b).length = d.length := by
  simp [flipOne]

/-- The mutation loop keeps the buffer length. -/
theorem flipBits_length (off : Nat) :
    ∀ (idxs : List Nat) (d : List Nat),
      (flipBits d off idxs).length = d.length := by
  intro idxs
  induction idxs with
  | nil =>
    intro d
    rfl
  | cons b rest ih =>
    intro d
    show (flipBits (flipOne d off b) off rest).length = d.length
    rw [ih, flipOne_length]

/-- Effect of one bit flip on the absolute-bit view: exactly the absolute
position `off * 8 + b` toggles. -/
theorem bitAt_flipOne (d : List Nat) (off b p : Nat)
    (h : off + b / 8 < d.length) :
    bitAt (flipOne d off b) p =
      ((bitAt d p) ^^ (decide (p = off * 8 + b))) := by
  unfold bitAt flipOne
  by_cases hp : p / 8 = off + b / 8
  · rw [hp, getD_set_self _ _ h, Nat.testBit_xor, Nat.one_shiftLeft,
      Nat.testBit_two_pow]
    have hiff : (b % 8 = p % 8) ↔ (p = off * 8 + b) := by omega
    rw [decide_eq_decide.mpr hiff]
  · have hne : off + b / 8 ≠ p / 8 := fun he => hp he.symm
    rw [getD_set_ne _ _ hne]
    have hnp : ¬ (p = off * 8 + b) := by omega
    simp [hnp]

/-- Effect of the whole mutation loop on the absolute-bit view, for a
duplicate-free index draw: position `p` toggles exactly when `p` is one of
the drawn absolute positions. -/
theorem bitAt_flipBits (off : Nat) :
    ∀ (idxs : List Nat) (d : List Nat) (p : Nat), idxs.Nodup →
      (∀ b ∈ idxs, off + b / 8 < d.length) →
      bitAt (flipBits d off idxs) p =
        ((bitAt d p) ^^ (decide (p ∈ idxs.map (fun b => off * 8 + b)))) := by
  intro idxs
  induction idxs with
  | nil =>
    intro d p _ _
    simp [flipBits]
  | cons b rest ih =>
    intro d p hnd hbd
    have hb : off + b / 8 < d.length := hbd b (List.mem_cons_self b rest)
    have hrest : ∀ c ∈ rest, off + c / 8 < (flipOne d off b).length := by
      intro c hc
      rw [flipOne_length]
      exact hbd c (List.mem_cons_of_mem b hc)
    have h1 : flipBits d off (b :: rest) = flipBits (flipOne d off b) off rest :=
      rfl
    rw [h1, ih (flipOne d off b) p (List.Nodup.of_cons hnd) hrest,
      bitAt_flipOne d off b p hb]
    by_cases hpb : p = off * 8 + b
    · have hbr : b ∉ rest := (List.nodup_cons.mp hnd).1
      simp [hpb, hbr]
    · simp [hpb]

/-- Bytes whose index no drawn bit maps to are left untouched. -/
theorem flipBits_getD_untouched (off : Nat) :
    ∀ (idxs : List Nat) (d : List Nat) (j : Nat),
      (∀ b ∈ idxs, off + b / 8 ≠ j) →
      (flipBits d off idxs).getD j 0 = d.getD j 0 := by
  intro idxs
  induction idxs with
  | nil =>
    intro d j _
    rfl
  | cons b rest ih =>
    intro d j h
    show (flipBits (flipOne d off b) off rest).getD j 0 = d.getD j 0
    rw [ih _ j (fun c hc => h c (List.mem_cons_of_mem b hc))]
    exact getD_set_ne _ _ (h b (List.mem_cons_self b rest))

/-- XOR-flipping the same bit twice restores the byte. -/
theorem flipOne_flipOne (d : List Nat) (off b : Nat) :
    flipOne (flipOne d off b) off b = d := by
  by_cases h : off + b / 8 < d.length
  · unfold flipOne
    rw [getD_set_self _ _ h, List.set_set, Nat.xor_assoc, Nat.xor_self,
      Nat.xor_zero]
    exact set_getD_self d h
  · have hle : d.length ≤ off + b / 8 := le_of_not_lt h
    unfold flipOne
    rw [List.set_eq_of_length_le hle, List.set_eq_of_length_le hle]

/-- Single-bit flips commute. -/
theorem flipOne_comm (d : List Nat) (off b c : Nat) :
    flipOne (flipOne d off b) off c = flipOne (flipOne d off c) off b := by
  by_cases hbc : off + b / 8 = off + c / 8
  · unfold flipOne
    rw [← hbc]
    by_cases h : off + b / 8 < d.length
    · rw [getD_set_self _ _ h, getD_set_self _ _ h, List.set_set,
        List.set_set, Nat.xor_assoc, Nat.xor_assoc,
        Nat.xor_comm (1 <<< (b % 8))]
    · have hle : d.length ≤ off + b / 8 := le_of_not_lt h
      simp only [List.set_eq_of_length_le hle]
  · unfold flipOne
    rw [getD_set_ne _ _ hbc, getD_set_ne _ _ (Ne.symm hbc)]
    exact List.set_comm _ _ _ hbc

/-- A single flip commutes with a whole mutation loop. -/
theorem flipBits_flipOne_comm (off : Nat) :
    ∀ (rest : List Nat) (d : List Nat) (b : Nat),
      flipBits (flipOne d off b) off rest =
        flipOne (flipBits d off rest) off b := by
  intro rest
  induction rest with
  | nil =>
    intro d b
    rfl
  | cons c rest' ih =>
    intro d b
    show flipBits (flipOne (flipOne d off b) off c) off rest' =
      flipOne (flipBits (flipOne d off c) off rest') off b
    rw [flipOne_comm, ih]

/-- Running the same mutation loop twice restores the buffer. -/
theorem flipBits_flipBits (off : Nat) :
    ∀ (idxs : List Nat) (d : List Nat),
      flipBits (flipBits d off idxs) off idxs = d := by
  intro idxs
  induction idxs with
  | nil =>
    intro d
    rfl
  | cons b rest ih =>
    intro d
    show flipBits (flipOne (flipBits (flipOne d off b) off rest) off b)
      off rest = d
    rw [← flipBits_flipOne_comm, flipOne_flipOne, ih]

/-- Any draw in the support of either mode's distribution yields a
duplicate-free list of exactly `bits` region-relative indices below
`total`. -/
theorem drawnIdxs_spec (mode : Mode) (total bits : Nat) (sample : List Nat)
    (start : Nat) (h : validDraw mode total bits sample start) :
    (drawnIdxs mode sample start bits).Nodup ∧
      (drawnIdxs mode sample start bits).length = bits ∧
      ∀ b ∈ drawnIdxs mode sample start bits, b < total := by
  cases mode with
  | random => exact h
  | seq =>
    refine ⟨List.nodup_range' _ _, by simp [drawnIdxs], ?_⟩
    intro b hb
    rcases List.mem_range'.mp hb with ⟨i, hi, rfl⟩
    have hst : start + bits ≤ total := h
    omega

/-- A successful scan returns exactly the folded record dictionary. -/
theorem scan_ok_eq {d : List Nat} {m : List RegionEntry}
    (h : scan d = Except.ok m) : m = buildDict (jpg_records d) := by
  unfold scan at h
  split at h
  · injection h with h'
    exact h'.symm
  · cases h

/-! ### Claim theorems -/

/-- C1: evaluating the scanner on a minimal container — the SOI signature
followed by one DQT segment whose length field is 4 (so the payload is the
two bytes 0xAA 0xBB at offsets 6 and 7) — records the Region
`("DQT-量化表", 4, 2)`.  The recorded offset is cursor + 2, the position of
the segment's 2-byte length field, not cursor + 4 as the specification
states, so the recorded span `[4, 6)` covers the length field itself and
misses the payload span `[6, 8)` entirely. -/
theorem scan_offset_includes_length_field :
    scan [0xFF, 0xD8, 0xFF, 0xDB, 0x00, 0x04, 0xAA, 0xBB] =
      Except.ok [("DQT-量化表", 4, 2)] ∧ (4 : Nat) ≠ 2 + 4 :=
  ⟨rfl, by omega⟩

/-- C4 counterexample: `bitCount = 0` violates the claimed lower bound
`1 ≤ bitCount`, yet `damage_region` raises no error at all — the source
only guards the upper bound. -/
theorem damage_zero_bits_no_error :
    (damage_region [0] 0 1 0 Mode.random [] 0).2 = none ∧ ¬ (1 ≤ 0) :=
  ⟨rfl, by omega⟩

/-- C4 (amended): `damage_region` raises `BitCountExceededError` exactly
when the requested bit count exceeds the region's bit capacity
`length * 8`; the lower bound `1 ≤ bitCount` is never checked, so
`bitCount = 0` is accepted silently. -/
theorem damage_error_iff_bits_exceed_capacity
    (data : List Nat) (off size bits : Nat) (mode : Mode)
    (sample : List Nat) (start : Nat) :
    (damage_region data off size bits mode sample start).2 =
        some "bit 数超过区域总位数" ↔ size * 8 < bits := by
  unfold damage_region
  split
  · rename_i h
    simp only [true_iff]
    omega
  · rename_i h
    simp only [reduceCtorEq, false_iff]
    omega

/-- C5: whenever `damage_region` reports the bit-count error, no mutation
has happened — the returned buffer equals the input byte for byte. -/
theorem damage_buffer_unchanged_on_error
    (data : List Nat) (off size bits : Nat) (mode : Mode)
    (sample : List Nat) (start : Nat)
    (h : (damage_region data off size bits mode sample start).2.isSome = true) :
    (damage_region data off size bits mode sample start).1 = data := by
  by_cases hb : bits > size * 8
  · simp [damage_region, hb]
  · simp [damage_region, hb] at h

/-- C5 witness: requesting 9 bits on a 1-byte region fails and leaves the
buffer `[5]` unchanged. -/
theorem damage_buffer_unchanged_on_error_witness :
    (damage_region [5] 0 1 9 Mode.random [] 0).2.isSome = true ∧
      (damage_region [5] 0 1 9 Mode.random [] 0).1 = [5] :=
  ⟨by decide, damage_buffer_unchanged_on_error [5] 0 1 9 Mode.random [] 0
    (by decide)⟩

/-- C7 counterexample: a recognised DQT segment whose declared length
field is exactly 2 produces a recorded Region of length 0, which is not
strictly positive as the claim requires. -/
theorem scan_records_zero_length_region :
    scan [0xFF, 0xD8, 0xFF, 0xDB, 0x00, 0x02] =
      Except.ok [("DQT-量化表", 4, 0)] ∧ ¬ ((0 : Int) > 0) :=
  ⟨rfl, by omega⟩

/-- C7 (amended): every recorded Region length equals its segment's
declared length field minus 2, hence is at least `-2`; it is strictly
positive only when the length field exceeds 2, and is zero or negative for
length fields of 2 or less. -/
theorem scan_region_length_ge_neg_two (d : List Nat)
    (m : List RegionEntry) (h : scan d = Except.ok m) :
    ∀ e ∈ m, (-2 : Int) ≤ e.2.2 := by
  intro e he
  rw [scan_ok_eq h] at he
  exact ((jpgScanLoop_inv d d.length 2).1 e (mem_buildDict he)).2.2

/-- C7 amended-claim witness at a concrete scan. -/
theorem scan_region_length_ge_neg_two_witness :
    scan [0xFF, 0xD8, 0xFF, 0xDB, 0x00, 0x04, 0xAA, 0xBB] =
        Except.ok [("DQT-量化表", 4, 2)] ∧
      (-2 : Int) ≤ ((("DQT-量化表" : String), ((4 : Nat), (2 : Int))) :
        RegionEntry).2.2 :=
  ⟨rfl, scan_region_length_ge_neg_two
    [0xFF, 0xD8, 0xFF, 0xDB, 0x00, 0x04, 0xAA, 0xBB] [("DQT-量化表", 4, 2)]
    rfl ("DQT-量化表", 4, 2) (List.mem_singleton.mpr rfl)⟩

/-- C9: when the walk stands at a recognised length-bearing segment whose
declared extent `cursor + 2 + length_field` exceeds the buffer, the walk
records nothing from that point on (whatever the remaining fuel), and the
scan still succeeds with a mapping rather than an error. -/
theorem scan_stops_silently_on_overlong_segment (d : List Nat) (i : Nat)
    (hsig : d.take 2 = [0xFF, 0xD8])
    (h4 : i + 4 ≤ d.length)
    (hff : d.getD i 0 = 0xFF)
    (hne : d.getD (i + 1) 0 ≠ 0xD9)
    (hrng : 0xC0 ≤ d.getD (i + 1) 0 ∧ d.getD (i + 1) 0 ≤ 0xFE)
    (hover : d.length < i + 2 + segLen d i) :
    (∃ m, scan d = Except.ok m) ∧ ∀ fuel, jpgScanLoop d fuel i = [] := by
  constructor
  · refine ⟨buildDict (jpg_records d), ?_⟩
    unfold scan
    rw [if_pos hsig]
  · intro fuel
    cases fuel with
    | zero => rfl
    | succ fuel =>
      have hff' : ¬ d.getD i 0 ≠ 0xFF := fun hcon => hcon hff
      rw [jpgScanLoop, if_pos h4, if_neg hff', if_neg hne, if_pos hrng,
        if_pos hover]

/-- C9 witness: a truncated SOS segment claiming 65535 bytes in a 6-byte
buffer ends the scan silently. -/
theorem scan_stops_silently_on_overlong_segment_witness :
    (∃ m, scan [0xFF, 0xD8, 0xFF, 0xDA, 0xFF, 0xFF] = Except.ok m) ∧
      ∀ fuel, jpgScanLoop [0xFF, 0xD8, 0xFF, 0xDA, 0xFF, 0xFF] fuel 2 = [] :=
  scan_stops_silently_on_overlong_segment _ 2 rfl (by decide) (by decide)
    (by decide) (by decide) (by decide)

/-- C2: for every input the scanner accepts, every Region of the mapping
has a nonnegative offset and a span end within the buffer, and the byte
spans of two distinct Regions never share a byte. -/
theorem scan_regions_in_bounds_and_disjoint (d : List Nat)
    (m : List RegionEntry) (h : scan d = Except.ok m) :
    (∀ e ∈ m, 0 ≤ (e.2.1 : Int) ∧ (e.2.1 : Int) + e.2.2 ≤ (d.length : Int)) ∧
      ∀ e1 ∈ m, ∀ e2 ∈ m, e1 ≠ e2 → ∀ x : Int,
        ¬(((e1.2.1 : Int) ≤ x ∧ x < (e1.2.1 : Int) + e1.2.2) ∧
          ((e2.2.1 : Int) ≤ x ∧ x < (e2.2.1 : Int) + e2.2.2)) := by
  have hrec : ∀ e ∈ m, e ∈ jpg_records d := by
    intro e he
    rw [scan_ok_eq h] at he
    exact mem_buildDict he
  constructor
  · intro e he
    have h1 := (jpgScanLoop_inv d d.length 2).1 e (hrec e he)
    exact ⟨by omega, h1.2.1⟩
  · intro e1 he1 e2 he2 hne x hx
    have hp := (jpgScanLoop_inv d d.length 2).2
    have hsym : Symmetric (fun a b : RegionEntry =>
        ((a.2.1 : Int) + a.2.2 ≤ (b.2.1 : Int)) ∨
          ((b.2.1 : Int) + b.2.2 ≤ (a.2.1 : Int))) := fun a b hab => hab.symm
    have hpair : List.Pairwise (fun a b : RegionEntry =>
        ((a.2.1 : Int) + a.2.2 ≤ (b.2.1 : Int)) ∨
          ((b.2.1 : Int) + b.2.2 ≤ (a.2.1 : Int))) (jpgScanLoop d d.length 2) :=
      hp.imp (fun {a b} hab => Or.inl hab)
    have hS := List.Pairwise.forall hsym hpair (hrec e1 he1) (hrec e2 he2) hne
    rcases hS with hle | hle
    · omega
    · omega

/-- C2 witness: a container with one DQT and one DHT segment; the DQT
Region fits the 16-byte buffer and byte 5 cannot lie in both spans. -/
theorem scan_regions_in_bounds_and_disjoint_witness :
    scan [0xFF, 0xD8, 0xFF, 0xDB, 0x00, 0x04, 0x01, 0x02,
        0xFF, 0xC4, 0x00, 0x04, 0x03, 0x04, 0xFF, 0xD9] =
      Except.ok [("DQT-量化表", 4, 2), ("DHT-霍夫曼表", 10, 2)] ∧
    ((0 : Int) ≤ ((4 : Nat) : Int) ∧
      ((4 : Nat) : Int) + (2 : Int) ≤ ((16 : Nat) : Int)) ∧
    ¬((((4 : Nat) : Int) ≤ 5 ∧ (5 : Int) < ((4 : Nat) : Int) + (2 : Int)) ∧
      (((10 : Nat) : Int) ≤ 5 ∧ (5 : Int) < ((10 : Nat) : Int) + (2 : Int))) :=
  ⟨rfl,
   (scan_regions_in_bounds_and_disjoint
      [0xFF, 0xD8, 0xFF, 0xDB, 0x00, 0x04, 0x01, 0x02,
        0xFF, 0xC4, 0x00, 0x04, 0x03, 0x04, 0xFF, 0xD9]
      [("DQT-量化表", 4, 2), ("DHT-霍夫曼表", 10, 2)] rfl).1
     ("DQT-量化表", 4, 2) (by simp),
   (scan_regions_in_bounds_and_disjoint
      [0xFF, 0xD8, 0xFF, 0xDB, 0x00, 0x04, 0x01, 0x02,
        0xFF, 0xC4, 0x00, 0x04, 0x03, 0x04, 0xFF, 0xD9]
      [("DQT-量化表", 4, 2), ("DHT-霍夫曼表", 10, 2)] rfl).2
     ("DQT-量化表", 4, 2) (by simp) ("DHT-霍夫曼表", 10, 2) (by simp)
     (by decide) 5⟩

/-- C6: on a nonempty mapping `largest_region` returns the name of the
first Region of maximal length in iteration (= insertion = stream) order:
everything recorded before it is strictly shorter and nothing in the
mapping is longer; on the empty mapping it fails with the empty-sequence
error. -/
theorem largest_region_max_earliest_or_error (l : List RegionEntry) :
    (l = [] →
      largest_region l = Except.error "max() arg is an empty sequence") ∧
    (l ≠ [] → ∃ pre r post,
      l = pre ++ r :: post ∧
      largest_region l = Except.ok r.1 ∧
      (∀ y ∈ l, y.2.2 ≤ r.2.2) ∧
      ∀ y ∈ pre, y.2.2 < r.2.2) := by
  constructor
  · intro h
    subst h
    rfl
  · intro h
    cases l with
    | nil => exact absurd rfl h
    | cons a xs =>
      rcases pyMax1_spec xs a with ⟨pre, post, hdec, hub, hstrict⟩
      exact ⟨pre, pyMax1 a xs, post, hdec, rfl, hub, hstrict⟩

/-- C6 witness: the empty mapping fails, and on two equal-length Regions
the earlier one wins. -/
theorem largest_region_max_earliest_or_error_witness :
    largest_region [] = Except.error "max() arg is an empty sequence" ∧
      ∃ pre r post,
        ([(("A" : String), ((0 : Nat), (3 : Int))), ("B", 9, 3)] :
            List RegionEntry) = pre ++ r :: post ∧
        largest_region [("A", 0, 3), ("B", 9, 3)] = Except.ok r.1 ∧
        (∀ y ∈ ([("A", 0, 3), ("B", 9, 3)] : List RegionEntry),
          y.2.2 ≤ r.2.2) ∧
        ∀ y ∈ pre, y.2.2 < r.2.2 :=
  ⟨(largest_region_max_earliest_or_error []).1 rfl,
   (largest_region_max_earliest_or_error [("A", 0, 3), ("B", 9, 3)]).2
     (by simp)⟩

/-- C10: the mapping holds exactly one entry per tag name; the span stored
under a name is that of the last record event with that name in stream
order, and every recorded name does appear in the mapping. -/
theorem scan_duplicate_tag_last_wins (d : List Nat)
    (m : List RegionEntry) (h : scan d = Except.ok m) :
    ((m.map Prod.fst).Nodup) ∧
      (∀ k v, (k, v) ∈ m → lastVal (jpg_records d) k = some v) ∧
      ∀ k v, (k, v) ∈ jpg_records d → ∃ v', (k, v') ∈ m := by
  rcases scan_ok_eq h with rfl
  exact ⟨buildDict_keys_nodup _,
    fun k v hkv => buildDict_lastVal _ k v hkv,
    fun k v hkv => buildDict_keys_complete hkv⟩

/-- C10 witness: two DQT segments in one stream leave a single mapping
entry whose span `(10, 2)` is the second (last) segment's. -/
theorem scan_duplicate_tag_last_wins_witness :
    scan [0xFF, 0xD8, 0xFF, 0xDB, 0x00, 0x04, 0x01, 0x02,
        0xFF, 0xDB, 0x00, 0x04, 0x03, 0x04] =
      Except.ok [("DQT-量化表", 10, 2)] ∧
    lastVal (jpg_records [0xFF, 0xD8, 0xFF, 0xDB, 0x00, 0x04, 0x01, 0x02,
        0xFF, 0xDB, 0x00, 0x04, 0x03, 0x04]) "DQT-量化表" = some (10, 2) :=
  ⟨rfl,
   (scan_duplicate_tag_last_wins
      [0xFF, 0xD8, 0xFF, 0xDB, 0x00, 0x04, 0x01, 0x02,
        0xFF, 0xDB, 0x00, 0x04, 0x03, 0x04]
      [("DQT-量化表", 10, 2)] rfl).2.1 "DQT-量化表" (10, 2)
     (List.mem_singleton.mpr rfl)⟩

/-- C3: for a draw in the support of either mode's distribution and a bit
count within the region's capacity, `damage_region` succeeds and the
resulting buffer keeps its length, agrees with the input on every byte
outside `[offset, offset + length)`, and differs from the input in exactly
`bitCount` absolute bit positions. -/
theorem damage_flips_exactly_bitCount_in_span
    (data : List Nat) (off size bits : Nat) (mode : Mode)
    (sample : List Nat) (start : Nat)
    (hspan : off + size ≤ data.length)
    (hlo : 1 ≤ bits) (hhi : bits ≤ size * 8)
    (hdraw : validDraw mode (size * 8) bits sample start) :
    ∃ out, damage_region data off size bits mode sample start = (out, none) ∧
      out.length = data.length ∧
      (∀ j, j < off ∨ off + size ≤ j → out.getD j 0 = data.getD j 0) ∧
      ((Finset.range (data.length * 8)).filter
        (fun p => bitAt out p ≠ bitAt data p)).card = bits := by
  obtain ⟨hnd, hlen, hbd⟩ := drawnIdxs_spec mode (size * 8) bits sample start hdraw
  set idxs := drawnIdxs mode sample start bits with hidxs
  have hnb : ¬ bits > size * 8 := by omega
  have hout : damage_region data off size bits mode sample start =
      (flipBits data off idxs, none) := by
    unfold damage_region
    rw [if_neg hnb]
  refine ⟨flipBits data off idxs, hout, flipBits_length off idxs data, ?_, ?_⟩
  · intro j hj
    apply flipBits_getD_untouched
    intro b hb
    have hblt : b < size * 8 := hbd b hb
    omega
  · have hbytes : ∀ b ∈ idxs, off + b / 8 < data.length := by
      intro b hb
      have := hbd b hb
      omega
    have hchar : ∀ p, (bitAt (flipBits data off idxs) p ≠ bitAt data p) ↔
        p ∈ idxs.map (fun b => off * 8 + b) := by
      intro p
      rw [bitAt_flipBits off idxs data p hnd hbytes]
      by_cases hp : p ∈ idxs.map (fun b => off * 8 + b)
      · cases hba : bitAt data p <;> simp [hp, hba]
      · cases hba : bitAt data p <;> simp [hp, hba]
    have hmapbound :
        ∀ q ∈ idxs.map (fun b => off * 8 + b), q < data.length * 8 := by
      intro q hq
      rcases List.mem_map.mp hq with ⟨b, hb, rfl⟩
      have := hbd b hb
      omega
    have hfs : (Finset.range (data.length * 8)).filter
        (fun p => bitAt (flipBits data off idxs) p ≠ bitAt data p) =
        (idxs.map (fun b => off * 8 + b)).toFinset := by
      apply Finset.ext
      intro p
      simp only [Finset.mem_filter, Finset.mem_range, List.mem_toFinset]
      constructor
      · rintro ⟨_, hp⟩
        exact (hchar p).mp hp
      · intro hp
        exact ⟨hmapbound p hp, (hchar p).mpr hp⟩
    rw [hfs]
    have hndmap : (idxs.map (fun b => off * 8 + b)).Nodup :=
      hnd.map (fun x y hxy => by omega)
    rw [List.toFinset_card_of_nodup hndmap, List.length_map, hlen]

/-- C3 witness: flipping 1 bit of a 1-byte region at offset 0 of `[0, 0]`
with the scatter draw `[0]`. -/
theorem damage_flips_exactly_bitCount_in_span_witness :
    ∃ out, damage_region [0, 0] 0 1 1 Mode.random [0] 0 = (out, none) ∧
      out.length = ([0, 0] : List Nat).length ∧
      (∀ j, j < 0 ∨ 0 + 1 ≤ j → out.getD j 0 = ([0, 0] : List Nat).getD j 0) ∧
      ((Finset.range (([0, 0] : List Nat).length * 8)).filter
        (fun p => bitAt out p ≠ bitAt [0, 0] p)).card = 1 :=
  damage_flips_exactly_bitCount_in_span [0, 0] 0 1 1 Mode.random [0] 0
    (by decide) (by decide) (by decide) (by decide)

/-- C8: XOR-flipping the same duplicate-free set of region-relative bit
indices twice restores every byte of the buffer exactly. -/
theorem double_flip_restores_buffer (data : List Nat) (off : Nat)
    (idxs : List Nat) (hnd : idxs.Nodup)
    (hbd : ∀ b ∈ idxs, off + b / 8 < data.length) :
    flipBits (flipBits data off idxs) off idxs = data :=
  flipBits_flipBits off idxs data

/-- C8 witness: flipping bit 3 of `[7, 8]` twice restores the buffer. -/
theorem double_flip_restores_buffer_witness :
    ([3] : List Nat).Nodup ∧
      flipBits (flipBits [7, 8] 0 [3]) 0 [3] = [7, 8] :=
  ⟨by decide, double_flip_restores_buffer [7, 8] 0 [3] (by decide) (by decide)⟩

end JPGCracker
